import Mathlib

set_option maxRecDepth 8192

/-!
# Verification of the NDJSON streaming token reader

Shallow embedding of `ollamaChatStreamWordByWord`
(`src/smart-fan-2030-full-db/src/app/components/AIAssistantPage.tsx`, lines 35-123),
the incremental streaming-response parser / token emitter of the chat assistant.

Bytes are modelled as `Nat`, JavaScript strings as `List Char`, the sink callback
`onToken` as an accumulated list of emitted fragments, and the transport
(`reader.read()` results) as a list of read events.
-/

/-! ## JavaScript character classes

`isJsWs` is the character set matched by the regular expression class `\s`
(which coincides with the set trimmed by `String.prototype.trim`):
whitespace, line terminators, NBSP, Ogham space, the Unicode `Zs` spaces,
narrow/medium spaces, ideographic space and the BOM. -/

def isJsWs (c : Char) : Bool :=
  let n := c.toNat
  n == 0x09 || n == 0x0A || n == 0x0B || n == 0x0C || n == 0x0D ||
  n == 0x20 || n == 0xA0 || n == 0x1680 ||
  (0x2000 ≤ n && n ≤ 0x200A) ||
  n == 0x2028 || n == 0x2029 || n == 0x202F || n == 0x205F ||
  n == 0x3000 || n == 0xFEFF

/-- JSON insignificant whitespace (the only characters `JSON.parse` skips
between tokens): space, tab, line feed, carriage return. -/
def isJsonWs (c : Char) : Bool :=
  c == ' ' || c == '\t' || c == '\n' || c == '\r'

/-- Model of `line.trim()`: remove leading and trailing JavaScript whitespace. -/
def trimJS (l : List Char) : List Char :=
  ((l.dropWhile isJsWs).reverse.dropWhile isJsWs).reverse

/-! ## Incremental UTF-8 decoding (`new TextDecoder("utf-8")`, `{stream: true}`)

The WHATWG UTF-8 decoder processes one byte at a time, carrying the partially
decoded code point between bytes; in non-fatal mode a decoding error emits
U+FFFD.  `bomDone` records whether the leading byte-order mark of the stream
has already been checked (the default `TextDecoder` strips one leading
U+FEFF from the stream). -/

structure DecSt where
  codePoint : Nat
  bytesSeen : Nat
  bytesNeeded : Nat
  lowerBound : Nat
  upperBound : Nat
  bomDone : Bool
  deriving Repr, DecidableEq

def initDec : DecSt := ⟨0, 0, 0, 0x80, 0xBF, false⟩

/-- Decode one byte arriving while the decoder is in its start state
(`bytesNeeded = 0`), keeping the BOM flag `bom`. -/
def decodeStart (bom : Bool) (b : Nat) : DecSt × List Nat :=
  if b ≤ 0x7F then (⟨0, 0, 0, 0x80, 0xBF, bom⟩, [b])
  else if 0xC2 ≤ b ∧ b ≤ 0xDF then (⟨b % 32, 0, 1, 0x80, 0xBF, bom⟩, [])
  else if 0xE0 ≤ b ∧ b ≤ 0xEF then
    (⟨b % 16, 0, 2, if b = 0xE0 then 0xA0 else 0x80,
      if b = 0xED then 0x9F else 0xBF, bom⟩, [])
  else if 0xF0 ≤ b ∧ b ≤ 0xF4 then
    (⟨b % 8, 0, 3, if b = 0xF0 then 0x90 else 0x80,
      if b = 0xF4 then 0x8F else 0xBF, bom⟩, [])
  else (⟨0, 0, 0, 0x80, 0xBF, bom⟩, [0xFFFD])

/-- Decode one byte: WHATWG "UTF-8 decoder" step, emitting the code points it
produces.  On a malformed continuation byte the state is reset, U+FFFD is
emitted, and the byte is reprocessed from the start state. -/
def decodeByte (s : DecSt) (b : Nat) : DecSt × List Nat :=
  if s.bytesNeeded = 0 then decodeStart s.bomDone b
  else if s.lowerBound ≤ b ∧ b ≤ s.upperBound then
    let cp := s.codePoint * 64 + b % 64
    if s.bytesSeen + 1 = s.bytesNeeded then
      (⟨0, 0, 0, 0x80, 0xBF, s.bomDone⟩, [cp])
    else (⟨cp, s.bytesSeen + 1, s.bytesNeeded, 0x80, 0xBF, s.bomDone⟩, [])
  else
    let r := decodeStart s.bomDone b
    (r.1, 0xFFFD :: r.2)

/-- Strip a leading U+FEFF the first time the stream produces a code point,
then convert code points to characters. -/
def emitChars (s : DecSt) (cps : List Nat) : DecSt × List Char :=
  match cps with
  | [] => (s, [])
  | c :: rest =>
    if s.bomDone then (⟨s.codePoint, s.bytesSeen, s.bytesNeeded, s.lowerBound, s.upperBound, true⟩,
      (c :: rest).map Char.ofNat)
    else
      let s' : DecSt := ⟨s.codePoint, s.bytesSeen, s.bytesNeeded, s.lowerBound, s.upperBound, true⟩
      if c = 0xFEFF then (s', rest.map Char.ofNat)
      else (s', (c :: rest).map Char.ofNat)

/-- Feed a whole chunk of bytes to the decoder (the single call
`decoder.decode(value, { stream: true })`), returning the new decoder state
and the decoded text. -/
def decodeChunk (d : DecSt) : List Nat → DecSt × List Char
  | [] => (d, [])
  | b :: bs =>
    let r := decodeByte d b
    let e := emitChars r.1 r.2
    let rest := decodeChunk e.1 bs
    (rest.1, e.2 ++ rest.2)

/-! ## Line framing: `buffer.split("\n")` -/

/-- Model of `s.split("\n")` on a JavaScript string: the list of substrings between
newline characters (an empty string yields `[""]`). -/
def splitNL : List Char → List (List Char)
  | [] => [[]]
  | c :: rest =>
    if c = '\n' then [] :: splitNL rest
    else
      match splitNL rest with
      | [] => [[c]]
      | p :: ps => (c :: p) :: ps

/-! ## Word splitting: `pending.split(/(\s+)/)`

Splitting on a captured group keeps the separators: the result alternates
(possibly empty) non-whitespace runs with maximal whitespace runs, beginning
and ending with a non-whitespace run. -/

def splitWs : List Char → List (List Char)
  | [] => [[]]
  | c :: rest =>
    match splitWs rest with
    | [] => [[]]
    | p :: ps =>
      if !isJsWs c then (c :: p) :: ps
      else
        match p, ps with
        | [], s :: ps' => [] :: (c :: s) :: ps'
        | _, _ => [] :: [c] :: p :: ps

/-! ## JSON values and `JSON.parse`

`JVal` models the JavaScript values `JSON.parse` can produce.  Numbers keep
their source lexeme: the claims under verification never exercise numeric
fields, and the lexeme is exact for the canonical integer literals that do
occur in practice. -/

inductive JVal where
  | jnull : JVal
  | jbool : Bool → JVal
  | jnum : List Char → JVal
  | jstr : List Char → JVal
  | jarr : List JVal → JVal
  | jobj : List (List Char × JVal) → JVal

def skipJsonWs (l : List Char) : List Char := l.dropWhile isJsonWs

def hexValue (c : Char) : Option Nat :=
  if '0' ≤ c ∧ c ≤ '9' then some (c.toNat - '0'.toNat)
  else if 'a' ≤ c ∧ c ≤ 'f' then some (c.toNat - 'a'.toNat + 10)
  else if 'A' ≤ c ∧ c ≤ 'F' then some (c.toNat - 'A'.toNat + 10)
  else none

/-- Parse the body of a JSON string literal (after the opening quote),
returning the decoded characters and the input after the closing quote.
Surrogate pairs written as two `\uXXXX` escapes are combined; a lone
surrogate (representable in a JavaScript string but not as a Unicode
scalar value) is mapped to U+FFFD.  The fuel argument bounds the recursion;
every step consumes at least one input character, so `length + 1` fuel
always suffices. -/
def parseStringBodyF : Nat → List Char → Option (List Char × List Char)
  | 0, _ => none
  | _ + 1, [] => none
  | _ + 1, '"' :: rest => some ([], rest)
  | f + 1, '\\' :: rest =>
    match rest with
    | 'u' :: h1 :: h2 :: h3 :: h4 :: rest' =>
      match hexValue h1, hexValue h2, hexValue h3, hexValue h4 with
      | some a, some b, some c, some d =>
        let cp := ((a * 16 + b) * 16 + c) * 16 + d
        if 0xD800 ≤ cp ∧ cp ≤ 0xDBFF then
          match rest' with
          | '\\' :: 'u' :: g1 :: g2 :: g3 :: g4 :: rest'' =>
            match hexValue g1, hexValue g2, hexValue g3, hexValue g4 with
            | some a', some b', some c', some d' =>
              let cp' := ((a' * 16 + b') * 16 + c') * 16 + d'
              if 0xDC00 ≤ cp' ∧ cp' ≤ 0xDFFF then
                (parseStringBodyF f rest'').map
                  (fun r => (Char.ofNat (0x10000 + (cp - 0xD800) * 0x400 + (cp' - 0xDC00)) :: r.1, r.2))
              else (parseStringBodyF f rest').map (fun r => ('�' :: r.1, r.2))
            | _, _, _, _ => (parseStringBodyF f rest').map (fun r => ('�' :: r.1, r.2))
          | _ => (parseStringBodyF f rest').map (fun r => ('�' :: r.1, r.2))
        else if 0xDC00 ≤ cp ∧ cp ≤ 0xDFFF then
          (parseStringBodyF f rest').map (fun r => ('�' :: r.1, r.2))
        else (parseStringBodyF f rest').map (fun r => (Char.ofNat cp :: r.1, r.2))
      | _, _, _, _ => none
    | '"' :: rest' => (parseStringBodyF f rest').map (fun r => ('"' :: r.1, r.2))
    | '\\' :: rest' => (parseStringBodyF f rest').map (fun r => ('\\' :: r.1, r.2))
    | '/' :: rest' => (parseStringBodyF f rest').map (fun r => ('/' :: r.1, r.2))
    | 'b' :: rest' => (parseStringBodyF f rest').map (fun r => ('\x08' :: r.1, r.2))
    | 'f' :: rest' => (parseStringBodyF f rest').map (fun r => ('\x0c' :: r.1, r.2))
    | 'n' :: rest' => (parseStringBodyF f rest').map (fun r => ('\n' :: r.1, r.2))
    | 'r' :: rest' => (parseStringBodyF f rest').map (fun r => ('\r' :: r.1, r.2))
    | 't' :: rest' => (parseStringBodyF f rest').map (fun r => ('\t' :: r.1, r.2))
    | _ => none
  | f + 1, c :: rest =>
    if c.toNat < 0x20 then none
    else (parseStringBodyF f rest).map (fun r => (c :: r.1, r.2))

def parseStringBody (l : List Char) : Option (List Char × List Char) :=
  parseStringBodyF (l.length + 1) l

def isDigitChar (c : Char) : Bool := '0' ≤ c && c ≤ '9'

/-- Parse a JSON number literal, returning its lexeme and the rest. -/
def parseNumber (l : List Char) : Option (List Char × List Char) :=
  let (neg, l1) := match l with
    | '-' :: r => (['-'], r)
    | _ => (([] : List Char), l)
  match l1 with
  | [] => none
  | c :: _ =>
    if !isDigitChar c then none
    else
      let intPart := l1.takeWhile isDigitChar
      let r1 := l1.dropWhile isDigitChar
      -- JSON forbids leading zeros on a multi-digit integer part
      if intPart.length > 1 ∧ intPart.headD '0' = '0' then none
      else
        let (fracPart, r2) := match r1 with
          | '.' :: r => let ds := r.takeWhile isDigitChar
                        if ds.isEmpty then ([], '.' :: r)
                        else ('.' :: ds, r.dropWhile isDigitChar)
          | _ => (([] : List Char), r1)
        if r2.length < r1.length ∨ fracPart.isEmpty then
          match r1, fracPart with
          | '.' :: _, [] => none  -- a dot must be followed by digits
          | _, _ =>
            let (expPart, r3) := match r2 with
              | e :: r =>
                if e = 'e' ∨ e = 'E' then
                  let (sgn, rs) := match r with
                    | s :: r' => if s = '+' ∨ s = '-' then ([s], r') else ([], r)
                    | [] => ([], r)
                  let ds := rs.takeWhile isDigitChar
                  if ds.isEmpty then ([], r2)
                  else (e :: (sgn ++ ds), rs.dropWhile isDigitChar)
                else ([], r2)
              | [] => ([], r2)
            some (neg ++ intPart ++ fracPart ++ expPart, r3)
        else none

/-- Parser modes: a value, the members of an object (after `{`), or the
elements of an array (after `[`), with the fields or elements read so far. -/
inductive PMode where
  | value : PMode
  | members : List (List Char × JVal) → PMode
  | elems : List JVal → PMode

/-- Fuel-indexed recursive-descent JSON parser.  `parseF fuel .value l`
parses one JSON value at the front of `l` (after insignificant whitespace)
and returns it with the remaining input. -/
def parseF : Nat → PMode → List Char → Option (JVal × List Char)
  | 0, _, _ => none
  | f + 1, .value, l =>
    match skipJsonWs l with
    | [] => none
    | '{' :: rest =>
      (match skipJsonWs rest with
       | '}' :: rest' => some (.jobj [], rest')
       | _ => parseF f (.members []) rest)
    | '[' :: rest =>
      (match skipJsonWs rest with
       | ']' :: rest' => some (.jarr [], rest')
       | _ => parseF f (.elems []) rest)
    | '"' :: rest => (parseStringBody rest).map (fun r => (.jstr r.1, r.2))
    | 't' :: 'r' :: 'u' :: 'e' :: rest => some (.jbool true, rest)
    | 'f' :: 'a' :: 'l' :: 's' :: 'e' :: rest => some (.jbool false, rest)
    | 'n' :: 'u' :: 'l' :: 'l' :: rest => some (.jnull, rest)
    | l' => (parseNumber l').map (fun r => (.jnum r.1, r.2))
  | f + 1, .members acc, l =>
    (match skipJsonWs l with
     | '"' :: rest =>
       match parseStringBody rest with
       | none => none
       | some (key, rest1) =>
         match skipJsonWs rest1 with
         | ':' :: rest2 =>
           match parseF f .value rest2 with
           | none => none
           | some (v, rest3) =>
             match skipJsonWs rest3 with
             | ',' :: rest4 => parseF f (.members (acc ++ [(key, v)])) rest4
             | '}' :: rest4 => some (.jobj (acc ++ [(key, v)]), rest4)
             | _ => none
         | _ => none
     | _ => none)
  | f + 1, .elems acc, l =>
    match parseF f .value l with
    | none => none
    | some (v, rest) =>
      match skipJsonWs rest with
      | ',' :: rest' => parseF f (.elems (acc ++ [v])) rest'
      | ']' :: rest' => some (.jarr (acc ++ [v]), rest')
      | _ => none

/-- Model of `JSON.parse` on a whole string: one value, then only insignificant
whitespace may remain; anything else throws (modelled as `none`). -/
def parseJSON (l : List Char) : Option JVal :=
  match parseF (l.length + 1) .value l with
  | some (v, rest) => if (skipJsonWs rest).isEmpty then some v else none
  | none => none

/-! ## JavaScript coercions used on parsed records -/

/-- Whether the mantissa of a JSON number lexeme is zero (the exponent
cannot make a zero mantissa non-zero or vice versa). -/
def numLexIsZero (lex : List Char) : Bool :=
  ((lex.takeWhile (fun c => c != 'e' && c != 'E')).filter isDigitChar).all (fun c => c == '0')

/-- JavaScript truthiness of a parsed JSON value (`if (chunk)`, `!!obj?.done`). -/
def truthy : JVal → Bool
  | .jnull => false
  | .jbool b => b
  | .jnum lex => !numLexIsZero lex
  | .jstr s => !s.isEmpty
  | .jarr _ => true
  | .jobj _ => true

/-- String coercion of a JSON value, as performed by `pending += chunk`.
Fuel-indexed for the recursion through arrays; number coercion is
approximated by the number's source lexeme (exact for canonical integer
literals).  Array elements are joined with commas, `null` elements
rendering as the empty string. -/
def jsToStringF : Nat → JVal → List Char
  | _, .jnull => ['n', 'u', 'l', 'l']
  | _, .jbool true => ['t', 'r', 'u', 'e']
  | _, .jbool false => ['f', 'a', 'l', 's', 'e']
  | _, .jnum lex => lex
  | _, .jstr s => s
  | _, .jobj _ => "[object Object]".data
  | 0, .jarr _ => []
  | f + 1, .jarr xs =>
    let strs := xs.map (fun v => match v with
      | .jnull => []
      | v => jsToStringF f v)
    (strs.intersperse [',']).flatten

/-- The nesting depth of a value produced by `JSON.parse` is at most the
length of the parsed text (each level consumes an opening bracket), so the
parsed line's length is always sufficient fuel for `jsToStringF`. -/
def jsToString (bound : Nat) (v : JVal) : List Char := jsToStringF (bound + 1) v

/-- Property access `v?.key` in JavaScript: defined only on objects here
(none of the other JSON values has the record's properties as own or
inherited enumerable members); duplicate keys follow `JSON.parse`, where
the last occurrence wins. -/
def jget (v : JVal) (k : List Char) : Option JVal :=
  match v with
  | .jobj fields => fields.foldl (fun acc kv => if kv.1 = k then some kv.2 else acc) none
  | _ => none

/-- Model of `obj?.message?.content ?? ""`: the text fragment carried by a record. -/
def contentVal (obj : JVal) : JVal :=
  match (jget obj ['m', 'e', 's', 's', 'a', 'g', 'e']).bind
      (fun m => jget m ['c', 'o', 'n', 't', 'e', 'n', 't']) with
  | none => .jstr []
  | some .jnull => .jstr []
  | some v => v

/-- Model of `!!obj?.done`: the record's completion flag. -/
def doneVal (obj : JVal) : Bool :=
  match jget obj ['d', 'o', 'n', 'e'] with
  | none => false
  | some v => truthy v

/-! ## Line processing (the body of `for (const line of lines)`) -/

/-- The tokenizer state shared across records: `pending` is the text
received but not yet emitted (`PendingText`), `emitted` the fragments
passed to `opts.onToken` so far, in order. -/
structure LState where
  pending : List Char
  emitted : List (List Char)
  deriving Repr, DecidableEq

/-- Lines 99-108 of the source, for a truthy fragment: append the
fragment to `pending`, split on whitespace keeping the separators
(`pending.split(/(\\s+)/)`), keep the last (possibly incomplete) piece as
the new `pending`, and emit all earlier non-empty pieces in order. -/
def tokenizeStep (st : LState) (chunkStr : List Char) : LState :=
  let parts := splitWs (st.pending ++ chunkStr)
  { pending := parts.getLastD [],
    emitted := st.emitted ++ parts.dropLast.filter (fun p => !p.isEmpty) }

/-- Lines 111-117 of the source: on a truthy `done` flag, emit a non-empty
`pending` whole and clear it. -/
def flushPending (st : LState) : LState :=
  if !st.pending.isEmpty then { pending := [], emitted := st.emitted ++ [st.pending] }
  else st

/-- Process one complete line (the body of `for (const line of lines)`,
source lines 83-117): trim it, skip it when empty or when `JSON.parse`
fails, otherwise tokenize a truthy fragment and, when the record's `done`
flag is truthy, flush the remaining pending text. -/
def processLine (st : LState) (line : List Char) : LState :=
  let trimmed := trimJS line
  if trimmed.isEmpty then st
  else
    match parseJSON trimmed with
    | none => st
    | some obj =>
      let st1 :=
        if truthy (contentVal obj) then
          tokenizeStep st (jsToString trimmed.length (contentVal obj))
        else st
      if doneVal obj then flushPending st1 else st1

/-! ## Chunk processing and the reader loop -/

/-- The whole reader state: decoder state, the line accumulator `buffer`
(`LineBuffer`), and the tokenizer state. -/
structure RState where
  dec : DecSt
  buffer : List Char
  ls : LState
  deriving Repr, DecidableEq

def initialState : RState := ⟨initDec, [], ⟨[], []⟩⟩

/-- Process one transport chunk: decode it incrementally, split the
accumulated text on newlines, retain the trailing (unterminated) part as
the new `buffer`, and run every complete line through `processLine`. -/
def processChunk (st : RState) (bytes : List Nat) : RState :=
  let d := decodeChunk st.dec bytes
  let parts := splitNL (st.buffer ++ d.2)
  { dec := d.1,
    buffer := parts.getLastD [],
    ls := parts.dropLast.foldl processLine st.ls }

def runChunks (st : RState) (cs : List (List Nat)) : RState :=
  cs.foldl processChunk st

/-- One result of awaiting `reader.read()`: a chunk of bytes, an abort of
the pending read (the cancellation signal fired), or a transport failure.
The end of the event list models `{ done: true }` from the transport. -/
inductive ReadEvent where
  | chunk : List Nat → ReadEvent
  | aborted : ReadEvent
  | failed : List Char → ReadEvent
  deriving Repr, DecidableEq

/-- How one invocation terminates. -/
inductive Outcome where
  | success : Outcome
  | noStreamBody : Outcome
  | cancelled : Outcome
  | transportFailure : List Char → Outcome
  deriving Repr, DecidableEq

/-- The final `if (pending) opts.onToken(pending)` flush executed when the
transport reports `done`. -/
def flushFinal (st : RState) : List (List Char) :=
  if !st.ls.pending.isEmpty then st.ls.emitted ++ [st.ls.pending] else st.ls.emitted

/-- The read loop (`while (true) { ... await reader.read() ... }`): each
event is one settled `read()`.  An abort rejects the pending read with an
`AbortError` that propagates out before the final flush, so the tokens
emitted are exactly those emitted before the abort; a transport failure
propagates likewise. -/
def runEvents (st : RState) : List ReadEvent → Outcome × List (List Char)
  | [] => (.success, flushFinal st)
  | .chunk bs :: rest => runEvents (processChunk st bs) rest
  | .aborted :: _ => (.cancelled, st.ls.emitted)
  | .failed m :: _ => (.transportFailure m, st.ls.emitted)

/-- The reader entry point after the HTTP status check: `res.body` absent
(`none`) fails with `NO_STREAM_BODY` before any processing; otherwise the
read loop consumes the body.  The second component is the full list of
arguments passed to `opts.onToken`, in call order. -/
def ollamaChatStreamWordByWord (body : Option (List ReadEvent)) :
    Outcome × List (List Char) :=
  match body with
  | none => (.noStreamBody, [])
  | some events => runEvents initialState events

/-! ## UTF-8 encoding (used to build concrete byte streams) -/

def utf8EncodeChar (c : Char) : List Nat :=
  let n := c.toNat
  if n < 0x80 then [n]
  else if n < 0x800 then [0xC0 + n / 64, 0x80 + n % 64]
  else if n < 0x10000 then [0xE0 + n / 4096, 0x80 + n / 64 % 64, 0x80 + n % 64]
  else [0xF0 + n / 262144, 0x80 + n / 4096 % 64, 0x80 + n / 64 % 64, 0x80 + n % 64]

def utf8Encode (s : List Char) : List Nat := (s.map utf8EncodeChar).flatten

/-- Newline-terminated NDJSON framing of a list of record lines. -/
def unlines (lines : List (List Char)) : List Char :=
  (lines.map (fun l => l ++ ['\n'])).flatten

/-! ## Concrete record lines (used for witnesses and counterexamples)

Ollama chat records have the shape of a JSON object with a nested
`message.content` string and a boolean `done`; `mkRecordLine` builds one
such line. -/

def quoteStr (s : List Char) : List Char := '"' :: (s ++ ['"'])

def mkRecordLine (content : List Char) (d : Bool) : List Char :=
  ['\x7b'] ++ quoteStr ['m', 'e', 's', 's', 'a', 'g', 'e'] ++ [':', '\x7b'] ++
    quoteStr ['c', 'o', 'n', 't', 'e', 'n', 't'] ++ [':'] ++ quoteStr content ++
    ['\x7d', ','] ++ quoteStr ['d', 'o', 'n', 'e'] ++ [':'] ++
    (if d then ['t', 'r', 'u', 'e'] else ['f', 'a', 'l', 's', 'e']) ++ ['\x7d']

/-- Two record lines whose fragments concatenate to "Hello world". -/
def c2lines : List (List Char) :=
  [mkRecordLine ("Hel".data) false, mkRecordLine ("lo world".data) true]

def c2frs : List (List Char) := [("Hel".data), ("lo world".data)]

/-- The NDJSON bytes of `c2lines` split in the middle of the second
record's JSON object. -/
def c2chunks : List (List Nat) :=
  [(utf8Encode (unlines c2lines)).take 30, (utf8Encode (unlines c2lines)).drop 30]

/-- One newline-terminated record whose fragment holds a two-byte UTF-8
character; byte 25 falls between the two bytes of that character. -/
def heBytes : List Nat := utf8Encode (mkRecordLine ("héllo".data) true ++ ['\n'])

def hiBytes : List Nat := utf8Encode (mkRecordLine ("hi ".data) false ++ ['\n'])

/-- A complete, valid record line deliberately left without a terminating
newline. -/
def ignoredBytes : List Nat := utf8Encode (mkRecordLine ("IGNORED".data) true)

/-- Merging a trailing partial line onto the head of a later split. -/
def glueHead (x : List Char) : List (List Char) → List (List Char)
  | [] => [x]
  | q :: qs => (x ++ q) :: qs

/-- The text a line contributes to the logical response: its record's
fragment when the line parses and the fragment is truthy, nothing
otherwise. -/
def lineContribution (line : List Char) : List Char :=
  let trimmed := trimJS line
  if trimmed.isEmpty then []
  else
    match parseJSON trimmed with
    | none => []
    | some obj =>
      if truthy (contentVal obj) then jsToString trimmed.length (contentVal obj) else []

/-- The line parses to a record whose fragment is exactly the string `f`. -/
def recOk (line f : List Char) : Bool :=
  match parseJSON (trimJS line) with
  | some obj =>
    match contentVal obj with
    | .jstr s => s == f
    | _ => false
  | none => false

/-- The record's completion flag, `false` when the line does not parse. -/
def doneOf (line : List Char) : Bool :=
  match parseJSON (trimJS line) with
  | some obj => doneVal obj
  | none => false

/-- All fragments passed to the sink so far are non-empty. -/
def emittedNonEmpty (st : LState) : Bool :=
  st.emitted.all (fun t => !t.isEmpty)

/-- The string contains no newline character. -/
def noNL (l : List Char) : Bool := l.all (fun c => c != '\n')

/-! ## List helper lemmas -/

theorem getLastD_append_right (xs : List α) {ys : List α} (d : α) (h : ys ≠ []) :
    (xs ++ ys).getLastD d = ys.getLastD d := by
  simp only [List.getLastD_eq_getLast?, List.getLast?_append_of_ne_nil xs h]

theorem flatten_dropLast_getLastD {ps : List (List α)} (h : ps ≠ []) :
    ps.dropLast.flatten ++ ps.getLastD [] = ps.flatten := by
  obtain ⟨x, hx⟩ := Option.isSome_iff_exists.1 (List.getLast?_isSome.2 h)
  have hds : ps.dropLast ++ [x] = ps := List.dropLast_append_getLast? x hx
  have hx' : ps.getLastD [] = x := by simp [hx]
  calc ps.dropLast.flatten ++ ps.getLastD [] = (ps.dropLast ++ [x]).flatten := by
        simp [hx]
    _ = ps.flatten := by rw [hds]

theorem flatten_filter_not_isEmpty (ps : List (List α)) :
    (ps.filter (fun p => !p.isEmpty)).flatten = ps.flatten := by
  induction ps with
  | nil => rfl
  | cons p ps ih =>
    cases p with
    | nil => simpa [List.filter_cons] using ih
    | cons c cs => simpa [List.filter_cons] using ih

/-! ## Lemmas about `splitWs` -/

theorem splitWs_ne_nil (l : List Char) : splitWs l ≠ [] := by
  cases l with
  | nil => simp [splitWs]
  | cons c rest =>
    unfold splitWs
    cases h : splitWs rest with
    | nil => simp
    | cons p ps =>
      by_cases hc : isJsWs c
      · cases p with
        | nil => cases ps <;> simp [hc]
        | cons x xs => simp [hc]
      · simp [hc]

/-- Splitting on whitespace runs loses no characters: the pieces concatenate
back to the input. -/
theorem splitWs_flatten (l : List Char) : (splitWs l).flatten = l := by
  induction l with
  | nil => simp [splitWs]
  | cons c rest ih =>
    unfold splitWs
    cases h : splitWs rest with
    | nil => exact absurd h (splitWs_ne_nil rest)
    | cons p ps =>
      rw [h] at ih
      by_cases hc : isJsWs c
      · cases p with
        | nil =>
          cases ps with
          | nil => simp_all
          | cons s ps' => simp_all
        | cons x xs => simp_all
      · simp_all

/-! ## Lemmas about `splitNL` -/

theorem splitNL_ne_nil (l : List Char) : splitNL l ≠ [] := by
  cases l with
  | nil => simp [splitNL]
  | cons c rest =>
    unfold splitNL
    by_cases hc : c = '\n'
    · simp [hc]
    · cases h : splitNL rest <;> simp [hc]


theorem glueHead_ne_nil (x : List Char) (qs : List (List Char)) : glueHead x qs ≠ [] := by
  cases qs <;> simp [glueHead]

theorem splitNL_cons_nl (l : List Char) : splitNL ('\n' :: l) = [] :: splitNL l := by
  simp [splitNL]

theorem splitNL_cons_other {c : Char} (hc : c ≠ '\n') (l : List Char) :
    splitNL (c :: l) = glueHead [c] (splitNL l) := by
  rw [splitNL, if_neg hc]
  cases h : splitNL l with
  | nil => exact absurd h (splitNL_ne_nil l)
  | cons p ps => simp [glueHead]

theorem glueHead_glueHead (x y : List Char) (qs : List (List Char)) :
    glueHead x (glueHead y qs) = glueHead (x ++ y) qs := by
  cases qs <;> simp [glueHead]

/-- How `split("\n")` decomposes over concatenation: all complete lines of
`a`, then `a`'s trailing partial line merged onto the first line of `b`,
then the remaining lines of `b`. -/
theorem splitNL_append (a b : List Char) :
    splitNL (a ++ b) =
      (splitNL a).dropLast ++ glueHead ((splitNL a).getLastD []) (splitNL b) := by
  induction a with
  | nil =>
    cases h : splitNL b with
    | nil => exact absurd h (splitNL_ne_nil b)
    | cons q qs => simp [splitNL, glueHead, h]
  | cons c rest ih =>
    by_cases hc : c = '\n'
    · subst hc
      rw [List.cons_append, splitNL_cons_nl, splitNL_cons_nl, ih]
      have h1 : splitNL rest ≠ [] := splitNL_ne_nil rest
      rw [List.dropLast_cons_of_ne_nil h1, List.getLastD_cons]
      cases hr : splitNL rest with
      | nil => exact absurd hr h1
      | cons q qs => simp [List.getLastD_cons]
    · rw [List.cons_append, splitNL_cons_other hc, splitNL_cons_other hc, ih]
      cases hr : splitNL rest with
      | nil => exact absurd hr (splitNL_ne_nil rest)
      | cons q qs =>
        cases qs with
        | nil =>
          simp only [List.dropLast_single, List.nil_append, List.getLastD_cons,
            glueHead_glueHead]
          rfl
        | cons q2 qs2 =>
          have h2 : q2 :: qs2 ≠ [] := by simp
          simp only [glueHead, List.dropLast_cons_of_ne_nil h2, List.getLastD_cons,
            List.cons_append]

/-! ## Newline-freedom -/

theorem splitNL_of_noNL {l : List Char} (h : noNL l = true) : splitNL l = [l] := by
  induction l with
  | nil => rfl
  | cons c rest ih =>
    simp only [noNL, List.all_cons, Bool.and_eq_true, bne_iff_ne] at h
    rw [splitNL_cons_other h.1 rest, ih (by simp [noNL, h.2])]
    simp [glueHead]

theorem noNL_getLastD_splitNL (l : List Char) :
    noNL ((splitNL l).getLastD []) = true := by
  induction l with
  | nil => rfl
  | cons c rest ih =>
    by_cases hc : c = '\n'
    · subst hc
      rw [splitNL_cons_nl, List.getLastD_cons]
      cases hs : splitNL rest with
      | nil => exact absurd hs (splitNL_ne_nil rest)
      | cons q qs => rw [hs] at ih; exact ih
    · rw [splitNL_cons_other hc rest]
      cases hs : splitNL rest with
      | nil => exact absurd hs (splitNL_ne_nil rest)
      | cons q qs =>
        rw [hs] at ih
        cases qs with
        | nil =>
          have hq : noNL q = true := by
            simpa [List.getLastD_cons] using ih
          show noNL ((glueHead [c] [q]).getLastD []) = true
          simp only [glueHead, List.cons_append, List.getLastD_cons, List.getLastD_nil]
          simp only [noNL, List.all_cons, Bool.and_eq_true, bne_iff_ne]
          exact ⟨hc, by simpa [noNL] using hq⟩
        | cons q2 qs2 =>
          simp only [glueHead, List.getLastD_cons] at ih ⊢
          exact ih

/-! ## Decoding distributes over chunk concatenation -/

theorem decodeChunk_append (a b : List Nat) (d : DecSt) :
    decodeChunk d (a ++ b) =
      ((decodeChunk (decodeChunk d a).1 b).1,
        (decodeChunk d a).2 ++ (decodeChunk (decodeChunk d a).1 b).2) := by
  induction a generalizing d with
  | nil => simp [decodeChunk]
  | cons x xs ih => simp [decodeChunk, ih]

/-! ## Chunk processing: homomorphism over concatenation -/

theorem noNL_buffer_processChunk (st : RState) (bs : List Nat) :
    noNL (processChunk st bs).buffer = true := by
  simp only [processChunk]
  exact noNL_getLastD_splitNL _

theorem processChunk_nil {st : RState} (h : noNL st.buffer = true) :
    processChunk st [] = st := by
  simp only [processChunk, decodeChunk, List.append_nil]
  rw [splitNL_of_noNL h]
  rfl

theorem processChunk_append (st : RState) (a b : List Nat) :
    processChunk st (a ++ b) = processChunk (processChunk st a) b := by
  simp only [processChunk, decodeChunk_append]
  have hb1 : noNL ((splitNL (st.buffer ++ (decodeChunk st.dec a).2)).getLastD []) = true :=
    noNL_getLastD_splitNL _
  have hsplit : splitNL ((splitNL (st.buffer ++ (decodeChunk st.dec a).2)).getLastD [] ++
      (decodeChunk (decodeChunk st.dec a).1 b).2) =
      glueHead ((splitNL (st.buffer ++ (decodeChunk st.dec a).2)).getLastD [])
        (splitNL (decodeChunk (decodeChunk st.dec a).1 b).2) := by
    rw [splitNL_append, splitNL_of_noNL hb1]
    simp [List.getLastD_cons, List.getLastD_nil]
  have hmain : splitNL (st.buffer ++ ((decodeChunk st.dec a).2 ++
      (decodeChunk (decodeChunk st.dec a).1 b).2)) =
      (splitNL (st.buffer ++ (decodeChunk st.dec a).2)).dropLast ++
        (splitNL ((splitNL (st.buffer ++ (decodeChunk st.dec a).2)).getLastD [] ++
          (decodeChunk (decodeChunk st.dec a).1 b).2)) := by
    rw [hsplit, ← List.append_assoc, splitNL_append]
  rw [hmain]
  have hne : splitNL ((splitNL (st.buffer ++ (decodeChunk st.dec a).2)).getLastD [] ++
      (decodeChunk (decodeChunk st.dec a).1 b).2) ≠ [] := splitNL_ne_nil _
  simp only [RState.mk.injEq]
  refine ⟨trivial, ?_, ?_⟩
  · rw [getLastD_append_right _ _ hne]
  · rw [List.dropLast_append_of_ne_nil _ hne, List.foldl_append]

theorem runChunks_eq_single (st : RState) (cs : List (List Nat))
    (h : noNL st.buffer = true) :
    runChunks st cs = processChunk st cs.flatten := by
  induction cs generalizing st with
  | nil => simpa [runChunks] using (processChunk_nil h).symm
  | cons c cs ih =>
    have h1 : noNL (processChunk st c).buffer = true := noNL_buffer_processChunk st c
    calc runChunks st (c :: cs) = runChunks (processChunk st c) cs := by
          simp [runChunks]
      _ = processChunk (processChunk st c) cs.flatten := ih _ h1
      _ = processChunk st (c ++ cs.flatten) := (processChunk_append st c cs.flatten).symm
      _ = processChunk st ((c :: cs).flatten) := by rw [List.flatten_cons]

theorem runEvents_chunks_append (st : RState) (cs : List (List Nat))
    (evs : List ReadEvent) :
    runEvents st (cs.map ReadEvent.chunk ++ evs) = runEvents (runChunks st cs) evs := by
  induction cs generalizing st with
  | nil => simp [runChunks]
  | cons c cs ih =>
    simp only [List.map_cons, List.cons_append]
    show runEvents (processChunk st c) (cs.map ReadEvent.chunk ++ evs) = _
    rw [ih]
    simp [runChunks]

theorem runEvents_chunks (st : RState) (cs : List (List Nat)) :
    runEvents st (cs.map ReadEvent.chunk) = (.success, flushFinal (runChunks st cs)) := by
  have := runEvents_chunks_append st cs []
  simpa [runEvents] using this

/-! ## Per-line accounting -/

theorem parseJSON_nil : parseJSON [] = none := rfl



theorem tokenizeStep_flatten (st : LState) (s : List Char) :
    (tokenizeStep st s).emitted.flatten ++ (tokenizeStep st s).pending =
      st.emitted.flatten ++ st.pending ++ s := by
  simp only [tokenizeStep, List.flatten_append, flatten_filter_not_isEmpty, List.append_assoc]
  rw [flatten_dropLast_getLastD (splitWs_ne_nil (st.pending ++ s)), splitWs_flatten]

theorem flushPending_flatten (st : LState) :
    (flushPending st).emitted.flatten ++ (flushPending st).pending =
      st.emitted.flatten ++ st.pending := by
  by_cases h : st.pending.isEmpty = true
  · simp [flushPending, h]
  · simp [flushPending, h]

theorem flushPending_pending (st : LState) : (flushPending st).pending = [] := by
  by_cases h : st.pending.isEmpty = true
  · simp [flushPending, h, List.isEmpty_iff.1 h]
  · simp [flushPending, h]

/-- Conservation through one line: the concatenation of everything emitted
plus the retained pending text grows by exactly the line's contribution. -/
theorem processLine_flatten (st : LState) (line : List Char) :
    (processLine st line).emitted.flatten ++ (processLine st line).pending =
      st.emitted.flatten ++ st.pending ++ lineContribution line := by
  unfold processLine lineContribution
  by_cases he : (trimJS line).isEmpty = true
  · simp [he]
  · simp only [he, Bool.false_eq_true, if_false]
    cases hp : parseJSON (trimJS line) with
    | none => simp
    | some obj =>
      by_cases ht : truthy (contentVal obj) = true
      · simp only [ht, if_true]
        by_cases hd : doneVal obj = true
        · simp only [hd, if_true]
          rw [flushPending_flatten, tokenizeStep_flatten]
        · simp only [hd, Bool.false_eq_true, if_false]
          rw [tokenizeStep_flatten]
      · simp only [ht, Bool.false_eq_true, if_false]
        by_cases hd : doneVal obj = true
        · simp only [hd, if_true]
          rw [flushPending_flatten]
          simp
        · simp [hd]

/-- Conservation through a list of lines. -/
theorem foldl_processLine_flatten (lines : List (List Char)) (st : LState) :
    (lines.foldl processLine st).emitted.flatten ++ (lines.foldl processLine st).pending =
      st.emitted.flatten ++ st.pending ++ (lines.map lineContribution).flatten := by
  induction lines generalizing st with
  | nil => simp
  | cons l ls ih =>
    simp only [List.foldl_cons, List.map_cons, List.flatten_cons]
    rw [ih, processLine_flatten]
    simp [List.append_assoc]

/-- A record whose `done` flag is truthy always leaves `pending` empty. -/
theorem processLine_pending_of_done (st : LState) {line : List Char} {obj : JVal}
    (hp : parseJSON (trimJS line) = some obj) (hd : doneVal obj = true) :
    (processLine st line).pending = [] := by
  have he : (trimJS line).isEmpty ≠ true := by
    intro habs
    rw [List.isEmpty_iff.1 habs, parseJSON_nil] at hp
    exact Option.noConfusion hp
  unfold processLine
  simp only [he, Bool.false_eq_true, if_false, hp, hd, if_true]
  exact flushPending_pending _

/-- A line that trims to nothing or fails to parse is skipped: the state is
unchanged and nothing is emitted. -/
theorem processLine_skip (st : LState) {line : List Char}
    (h : trimJS line = [] ∨ parseJSON (trimJS line) = none) :
    processLine st line = st := by
  unfold processLine
  rcases h with h | h
  · simp [h]
  · by_cases he : (trimJS line).isEmpty = true
    · simp [he]
    · simp [he, h]

/-! ## End-to-end accounting -/

theorem splitNL_unlines {lines : List (List Char)}
    (hnl : ∀ l ∈ lines, noNL l = true) :
    splitNL (unlines lines) = lines ++ [[]] := by
  induction lines with
  | nil => rfl
  | cons l ls ih =>
    have hl : noNL l = true := hnl l (List.mem_cons_self l ls)
    have hrest : splitNL (unlines ls) = ls ++ [[]] :=
      ih (fun x hx => hnl x (List.mem_cons_of_mem l hx))
    show splitNL ((l ++ ['\n']) ++ unlines ls) = (l :: ls) ++ [[]]
    rw [List.append_assoc, List.singleton_append, splitNL_append, splitNL_of_noNL hl]
    simp only [List.dropLast_single, List.getLastD_cons, List.getLastD_nil, List.nil_append]
    rw [splitNL_cons_nl, hrest]
    simp [glueHead]

theorem flushFinal_flatten (st : RState) :
    (flushFinal st).flatten = st.ls.emitted.flatten ++ st.ls.pending := by
  by_cases h : st.ls.pending.isEmpty = true
  · simp [flushFinal, h, List.isEmpty_iff.1 h]
  · simp [flushFinal, h]

/-- Running the reader over chunks whose decoded text is exactly a list of
newline-terminated lines: the buffer ends empty and the tokenizer state is
the fold of `processLine` over those lines. -/
theorem runChunks_unlines (cs : List (List Nat)) (lines : List (List Char))
    (hdec : (decodeChunk initDec cs.flatten).2 = unlines lines)
    (hnl : ∀ l ∈ lines, noNL l = true) :
    (runChunks initialState cs).ls = lines.foldl processLine ⟨[], []⟩ ∧
      (runChunks initialState cs).buffer = [] := by
  rw [runChunks_eq_single initialState cs rfl]
  simp only [processChunk, initialState, List.nil_append, hdec, splitNL_unlines hnl]
  constructor
  · simp [List.dropLast_concat]
  · rw [getLastD_append_right _ _ (by simp : ([[]] : List (List Char)) ≠ [])]
    rfl

/-! ## Record-level checks, used to state the ordering claims -/



theorem jsToString_jstr (bound : Nat) (s : List Char) :
    jsToString bound (.jstr s) = s := by
  simp [jsToString, jsToStringF]

theorem lineContribution_of_recOk {line f : List Char} (h : recOk line f = true) :
    lineContribution line = f := by
  unfold recOk at h
  split at h
  next obj hp =>
    split at h
    next s hv =>
      have hsf : s = f := by simpa using h
      have he : (trimJS line).isEmpty ≠ true := by
        intro habs
        rw [List.isEmpty_iff.1 habs, parseJSON_nil] at hp
        exact Option.noConfusion hp
      unfold lineContribution
      simp only [he, Bool.false_eq_true, if_false, hp, hv, jsToString_jstr]
      by_cases hs : s.isEmpty = true
      · simp [truthy, hs, hsf ▸ (List.isEmpty_iff.1 hs)]
      · simp [truthy, hs, hsf]
    next hv => exact Bool.noConfusion h
  next hp => exact Bool.noConfusion h

theorem contributions_eq_frs (lines frs : List (List Char))
    (hlen : lines.length = frs.length)
    (hrec : ((lines.zip frs).all (fun p => recOk p.1 p.2)) = true) :
    (lines.map lineContribution).flatten = frs.flatten := by
  induction lines generalizing frs with
  | nil => cases frs with
    | nil => rfl
    | cons f fs => exact absurd hlen (by simp)
  | cons l ls ih =>
    cases frs with
    | nil => exact absurd hlen (by simp)
    | cons f fs =>
      simp only [List.zip_cons_cons, List.all_cons, Bool.and_eq_true] at hrec
      simp only [List.map_cons, List.flatten_cons, lineContribution_of_recOk hrec.1]
      rw [ih fs (by simpa using hlen) hrec.2]

/-! ## Non-emptiness of emitted fragments -/


theorem emittedNonEmpty_tokenizeStep {st : LState} (h : emittedNonEmpty st = true)
    (s : List Char) : emittedNonEmpty (tokenizeStep st s) = true := by
  simp only [emittedNonEmpty, tokenizeStep, List.all_append, Bool.and_eq_true] at *
  refine ⟨h, ?_⟩
  rw [List.all_eq_true]
  intro x hx
  have := List.of_mem_filter hx
  simpa using this

theorem emittedNonEmpty_flushPending {st : LState} (h : emittedNonEmpty st = true) :
    emittedNonEmpty (flushPending st) = true := by
  unfold flushPending
  by_cases hp : st.pending.isEmpty = true
  · simp [hp, h]
  · simp only [hp, Bool.not_false, if_true]
    simp only [emittedNonEmpty, List.all_append, Bool.and_eq_true] at *
    exact ⟨h, by simp [hp]⟩

theorem emittedNonEmpty_processLine {st : LState} (h : emittedNonEmpty st = true)
    (line : List Char) : emittedNonEmpty (processLine st line) = true := by
  unfold processLine
  by_cases he : (trimJS line).isEmpty = true
  · simpa [he] using h
  · simp only [he, Bool.false_eq_true, if_false]
    cases hp : parseJSON (trimJS line) with
    | none => exact h
    | some obj =>
      by_cases ht : truthy (contentVal obj) = true
      · by_cases hd : doneVal obj = true
        · simp only [ht, if_true, hd]
          exact emittedNonEmpty_flushPending (emittedNonEmpty_tokenizeStep h _)
        · simp only [ht, if_true, hd, Bool.false_eq_true, if_false]
          exact emittedNonEmpty_tokenizeStep h _
      · by_cases hd : doneVal obj = true
        · simp only [ht, Bool.false_eq_true, if_false, hd, if_true]
          exact emittedNonEmpty_flushPending h
        · simpa [ht, hd] using h

theorem emittedNonEmpty_foldl {st : LState} (h : emittedNonEmpty st = true)
    (lines : List (List Char)) :
    emittedNonEmpty (lines.foldl processLine st) = true := by
  induction lines generalizing st with
  | nil => exact h
  | cons l ls ih => exact ih (emittedNonEmpty_processLine h l)

theorem emittedNonEmpty_processChunk {st : RState} (h : emittedNonEmpty st.ls = true)
    (bs : List Nat) : emittedNonEmpty (processChunk st bs).ls = true := by
  simp only [processChunk]
  exact emittedNonEmpty_foldl h _

theorem flushFinal_nonempty {st : RState} (h : emittedNonEmpty st.ls = true) :
    (flushFinal st).all (fun t => !t.isEmpty) = true := by
  unfold flushFinal
  by_cases hp : st.ls.pending.isEmpty = true
  · simp only [hp, Bool.not_true, Bool.false_eq_true, if_false]
    exact h
  · simp only [hp, Bool.not_false, if_true, List.all_append, Bool.and_eq_true]
    exact ⟨h, by simp [hp]⟩

theorem runEvents_nonempty {st : RState} (h : emittedNonEmpty st.ls = true)
    (evs : List ReadEvent) :
    ((runEvents st evs).2).all (fun t => !t.isEmpty) = true := by
  induction evs generalizing st with
  | nil => exact flushFinal_nonempty h
  | cons e evs ih =>
    cases e with
    | chunk bs => exact ih (emittedNonEmpty_processChunk h bs)
    | aborted => exact h
    | failed m => exact h

/-! ## A trailing chunk with no newline in its decoded text is inert -/

theorem processChunk_no_newline {st : RState} {t : List Nat}
    (hb : noNL st.buffer = true)
    (ht : noNL (decodeChunk st.dec t).2 = true) :
    (processChunk st t).ls = st.ls := by
  simp only [processChunk]
  have hcomb : noNL (st.buffer ++ (decodeChunk st.dec t).2) = true := by
    simp only [noNL, List.all_append, Bool.and_eq_true]
    exact ⟨hb, ht⟩
  rw [splitNL_of_noNL hcomb]
  rfl

/-! ## Claim theorems -/

theorem noNL_buffer_runChunks {st : RState} (h : noNL st.buffer = true)
    (cs : List (List Nat)) : noNL (runChunks st cs).buffer = true := by
  induction cs generalizing st with
  | nil => exact h
  | cons c cs ih => exact ih (noNL_buffer_processChunk st c)

/-- C6: when the response body is absent the reader fails with the
`NoStreamBody` outcome before any processing, and the sink is never
invoked (no tokens are emitted). -/
theorem C6_no_body_fails_before_processing :
    ollamaChatStreamWordByWord none = (Outcome.noStreamBody, []) := rfl

/-- C8: after any sequence of chunk-processing steps, the line buffer holds
no newline character: every newline-terminated line was handed to record
parsing and only the unterminated trailing remainder is retained. -/
theorem C8_lineBuffer_partial (cs : List (List Nat)) :
    ((runChunks initialState cs).buffer.all (fun c => c != '\n')) = true :=
  @noNL_buffer_runChunks initialState rfl cs

/-- C10: every fragment the reader passes to the sink is non-empty,
whatever the body and transport events are: per-record emission filters
zero-length pieces and both flushes are guarded on a non-empty pending. -/
theorem C10_tokens_nonempty (body : Option (List ReadEvent)) :
    ((ollamaChatStreamWordByWord body).2).all (fun t => !t.isEmpty) = true := by
  cases body with
  | none => rfl
  | some evs => exact @runEvents_nonempty initialState rfl evs

/-- C3: two chunkings of the same total byte sequence yield the same
concatenated emitted output, even when a boundary falls inside a
multi-byte character, a line, or a JSON object. -/
theorem C3_chunk_boundary_independence (c1 c2 : List (List Nat))
    (h : c1.flatten = c2.flatten) :
    ((runEvents initialState (c1.map ReadEvent.chunk)).2).flatten =
      ((runEvents initialState (c2.map ReadEvent.chunk)).2).flatten := by
  rw [runEvents_chunks, runEvents_chunks]
  simp only
  rw [runChunks_eq_single initialState c1 rfl, runChunks_eq_single initialState c2 rfl, h]

/-- C9: when the transport ends while the buffer still holds a trailing
line with no terminating newline, that residual line is never parsed and
never emitted, even if it is a complete valid record: appending such a
trailing chunk changes nothing in the reader's outcome or tokens. -/
theorem C9_residual_line_discarded (cs : List (List Nat)) (t : List Nat)
    (ht : ((decodeChunk (runChunks initialState cs).dec t).2.all (fun c => c != '\n')) = true) :
    runEvents initialState ((cs ++ [t]).map ReadEvent.chunk) =
      runEvents initialState (cs.map ReadEvent.chunk) := by
  rw [runEvents_chunks, runEvents_chunks]
  have hb : noNL (runChunks initialState cs).buffer = true :=
    @noNL_buffer_runChunks initialState rfl cs
  have hstep : runChunks initialState (cs ++ [t]) =
      processChunk (runChunks initialState cs) t := by
    simp [runChunks, List.foldl_append]
  have hls := processChunk_no_newline hb ht
  rw [hstep]
  unfold flushFinal
  rw [hls]

/-- C4: if the cancellation signal fires while the reader awaits the next
chunk, the read rejects with the cancellation outcome (a constructor
distinct from a transport failure), the sink receives no further calls,
and the unflushed pending text is discarded instead of emitted; in
particular a stream holding only the pending fragment "Bon" emits
nothing. -/
theorem C4_cancellation_discards_pending (cs : List (List Nat)) (rest : List ReadEvent) :
    runEvents initialState (cs.map ReadEvent.chunk ++ ReadEvent.aborted :: rest) =
      (Outcome.cancelled, (runChunks initialState cs).ls.emitted) ∧
    runEvents initialState
        [ReadEvent.chunk (utf8Encode (mkRecordLine ("Bon".data) false ++ ['\n'])),
          ReadEvent.aborted] =
      (Outcome.cancelled, []) := by
  constructor
  · rw [runEvents_chunks_append]
    rfl
  · decide

/-- C7: the fragments "a", "  ", "b" across three records, the last marked
done, emit exactly the tokens "a", "  ", "b" in order; their concatenation
is exactly "a  b" with the whitespace run preserved verbatim. -/
theorem C7_whitespace_run_fidelity :
    runEvents initialState
        [ReadEvent.chunk (utf8Encode (mkRecordLine ("a".data) false ++ ['\n'])),
          ReadEvent.chunk (utf8Encode (mkRecordLine ("  ".data) false ++ ['\n'])),
          ReadEvent.chunk (utf8Encode (mkRecordLine ("b".data) true ++ ['\n']))] =
      (Outcome.success, [("a".data), ("  ".data), ("b".data)]) ∧
    ([("a".data), ("  ".data), ("b".data)] : List (List Char)).flatten = ("a  b".data) := by
  exact ⟨by decide, by decide⟩

/-- C1 (counterexample): a record with the completion flag set does not
make the reader stop. With two newline-terminated records both carrying
`done: true` in the transport, the second is still processed and its
fragment "world" still emitted: the sink is called twice, not once. -/
theorem C1_counterexample :
    (runEvents initialState
        [ReadEvent.chunk (utf8Encode
          (mkRecordLine ("hello".data) true ++ '\n' ::
            (mkRecordLine ("world".data) true ++ ['\n'])))]).2 =
      [("hello".data), ("world".data)] ∧
    ((runEvents initialState
        [ReadEvent.chunk (utf8Encode
          (mkRecordLine ("hello".data) true ++ '\n' ::
            (mkRecordLine ("world".data) true ++ ['\n'])))]).2).length = 2 := by
  exact ⟨by decide, by decide⟩

/-- C1 (amended): upon processing a record whose completion flag is truthy
the reader flushes any remaining pending text to the sink and clears it —
but it does not return: subsequent records in the transport are still
processed. For the single record with fragment "hello" and `done: true`
followed by the end of the transport, the sink is called exactly once,
with "hello", and no pending text is retained. -/
theorem C1_done_flushes_pending (st : LState) (line : List Char) (obj : JVal)
    (hp : parseJSON (trimJS line) = some obj) (hd : doneVal obj = true) :
    (processLine st line).pending = [] ∧
    (processLine st line).emitted.flatten =
      st.emitted.flatten ++ st.pending ++ lineContribution line ∧
    runEvents initialState
        [ReadEvent.chunk (utf8Encode (mkRecordLine ("hello".data) true ++ ['\n']))] =
      (Outcome.success, [("hello".data)]) := by
  have h1 := processLine_pending_of_done st hp hd
  have h2 := processLine_flatten st line
  rw [h1, List.append_nil] at h2
  exact ⟨h1, h2, by decide⟩

theorem C1_done_flushes_pending_witness :
    parseJSON (trimJS (mkRecordLine ("hello".data) true)) =
        some (JVal.jobj
          [(("message".data), JVal.jobj [(("content".data), JVal.jstr ("hello".data))]),
            (("done".data), JVal.jbool true)]) ∧
    doneVal (JVal.jobj
          [(("message".data), JVal.jobj [(("content".data), JVal.jstr ("hello".data))]),
            (("done".data), JVal.jbool true)]) = true ∧
    (processLine ⟨("Bon".data), []⟩ (mkRecordLine ("hello".data) true)).pending = [] :=
  ⟨rfl, rfl,
    (C1_done_flushes_pending ⟨("Bon".data), []⟩ (mkRecordLine ("hello".data) true)
      (JVal.jobj
        [(("message".data), JVal.jobj [(("content".data), JVal.jstr ("hello".data))]),
          (("done".data), JVal.jbool true)]) rfl rfl).1⟩

/-- C5: a line that is not valid JSON (or whose trimmed form is empty)
inserted anywhere between record lines is skipped silently: the run over
the lines is unchanged, no token differs and no error arises. -/
theorem C5_malformed_line_skipped (st : LState) (ls1 ls2 : List (List Char))
    (m : List Char) (hm : trimJS m = [] ∨ parseJSON (trimJS m) = none) :
    (ls1 ++ m :: ls2).foldl processLine st = (ls1 ++ ls2).foldl processLine st := by
  rw [List.foldl_append, List.foldl_append, List.foldl_cons, processLine_skip _ hm]

theorem C5_malformed_line_skipped_witness :
    (trimJS ("this is not json".data) = [] ∨
      parseJSON (trimJS ("this is not json".data)) = none) ∧
    ([mkRecordLine ("Bonjour ".data) false] ++
        ("this is not json".data) :: [mkRecordLine ("tout le monde".data) true]).foldl
        processLine ⟨[], []⟩ =
      ([mkRecordLine ("Bonjour ".data) false] ++
        [mkRecordLine ("tout le monde".data) true]).foldl processLine ⟨[], []⟩ :=
  ⟨Or.inr rfl,
    C5_malformed_line_skipped ⟨[], []⟩ [mkRecordLine ("Bonjour ".data) false]
      [mkRecordLine ("tout le monde".data) true] ("this is not json".data) (Or.inr rfl)⟩

/-- C2: for any chunking whose decoded bytes form newline-terminated
records carrying the fragments `frs` — no completion flag before the last
record, the last record flagged done — the concatenation of all fragments
passed to the sink, in emission order, equals the concatenation of `frs`. -/
theorem C2_order_preservation (chunks : List (List Nat)) (lines frs : List (List Char))
    (hdec : (decodeChunk initDec chunks.flatten).2 = unlines lines)
    (hnl : (lines.all noNL) = true)
    (hlen : lines.length = frs.length)
    (hrec : ((lines.zip frs).all (fun p => recOk p.1 p.2)) = true)
    (hne : lines ≠ [])
    (hpredone : (lines.dropLast.all (fun l => !(doneOf l))) = true)
    (hlast : doneOf (lines.getLastD []) = true) :
    ((runEvents initialState (chunks.map ReadEvent.chunk)).2).flatten = frs.flatten := by
  rw [runEvents_chunks]
  simp only
  have hnl' : ∀ l ∈ lines, noNL l = true := List.all_eq_true.1 hnl
  obtain ⟨hls, hbuf⟩ := runChunks_unlines chunks lines hdec hnl'
  rw [flushFinal_flatten, hls]
  have hfold := foldl_processLine_flatten lines ⟨[], []⟩
  simp only [List.flatten_nil, List.nil_append] at hfold
  rw [hfold]
  exact contributions_eq_frs lines frs hlen hrec


theorem C2_order_preservation_witness :
    ((decodeChunk initDec c2chunks.flatten).2 = unlines c2lines) ∧
    ((c2lines.all noNL) = true) ∧
    (((c2lines.zip c2frs).all (fun p => recOk p.1 p.2)) = true) ∧
    ((c2lines.dropLast.all (fun l => !(doneOf l))) = true) ∧
    (doneOf (c2lines.getLastD []) = true) ∧
    ((runEvents initialState (c2chunks.map ReadEvent.chunk)).2).flatten = c2frs.flatten :=
  ⟨by decide, by decide, by decide, by decide, by decide,
    C2_order_preservation c2chunks c2lines c2frs (by decide) (by decide) (by decide)
      (by decide) (by decide) (by decide) (by decide)⟩

theorem C3_chunk_boundary_independence_witness :
    (([heBytes] : List (List Nat)).flatten =
      ([heBytes.take 25, heBytes.drop 25] : List (List Nat)).flatten) ∧
    ((runEvents initialState ([heBytes].map ReadEvent.chunk)).2).flatten =
      ((runEvents initialState
        (([heBytes.take 25, heBytes.drop 25] : List (List Nat)).map ReadEvent.chunk)).2).flatten :=
  ⟨by decide,
    C3_chunk_boundary_independence [heBytes] [heBytes.take 25, heBytes.drop 25] (by decide)⟩

theorem C9_residual_line_discarded_witness :
    ((decodeChunk (runChunks initialState [hiBytes]).dec ignoredBytes).2.all
      (fun c => c != '\n')) = true ∧
    runEvents initialState (([hiBytes] ++ [ignoredBytes]).map ReadEvent.chunk) =
      runEvents initialState ([hiBytes].map ReadEvent.chunk) :=
  ⟨by decide, C9_residual_line_discarded [hiBytes] ignoredBytes (by decide)⟩
